import Mathlib

/-!
# Verification of `tidify` (tangibleintelligence/tidify)

Shallow embedding of `src/tidify/tidify.py`: the recursive flattening engine
`convert_to_tidy`, the column comparator `col_comparator`, and the orchestrator
`tidify` (column collection and sorting).

Modelling conventions:
* A JSON-like value (`JVal`) is a scalar (`SVal`: int, string, bool, null),
  an object (insertion-ordered association list, mirroring a Python `dict`),
  or an array (list).
* Python `dict` update semantics are modelled by `pyInsert` (assignment: replace
  the value in place when the key is present, else append) and `pyMerge`
  (`{**a, **b}`).
* The recursion of `convert_to_tidy` is expressed with an explicit fuel equal to
  `sizeJ` of the remaining value; each recursive step strictly shrinks the
  remaining value, so this fuel bounds the recursion depth (the lemmas proved
  below never assume more fuel than that).
* String operations used by the comparator (`str.split`, `str.endswith`,
  `str.count`, `<`) are modelled by structurally recursive functions over the
  character lists, matching CPython semantics for a non-empty separator
  (CPython raises `ValueError` on `split("")`, so an empty separator is outside
  the modelled domain).
-/

namespace Tidify

/-- Scalar leaf values (Python int/str/bool/None). -/
inductive SVal where
  | i : Int → SVal
  | str : String → SVal
  | b : Bool → SVal
  | null : SVal
deriving DecidableEq

/-- A node of the nested input tree: scalar, object (ordered mapping) or array. -/
inductive JVal where
  | s : SVal → JVal
  | obj : List (String × JVal) → JVal
  | arr : List JVal → JVal

/-- A Python dict with `JVal` values: an insertion-ordered association list. -/
abbrev Obj := List (String × JVal)

mutual

/-- Node count of a value (used as recursion fuel for `convert_to_tidy`). -/
def sizeJ : JVal → Nat
  | .s _ => 1
  | .obj f => 1 + sizeFields f
  | .arr l => 1 + sizeElems l

/-- Node count of an object's field list. -/
def sizeFields : List (String × JVal) → Nat
  | [] => 1
  | p :: rest => 1 + sizeJ p.2 + sizeFields rest

/-- Node count of an array's element list. -/
def sizeElems : List JVal → Nat
  | [] => 1
  | x :: rest => 1 + sizeJ x + sizeElems rest

end

/-- Keys of a dict, in insertion order. -/
def keysO (o : Obj) : List String := o.map Prod.fst

/-- Python dict assignment `d[k] = v`: if `k` is present the value is replaced
in place (position kept), otherwise the pair is appended at the end. -/
def pyInsert (d : Obj) (k : String) (v : JVal) : Obj :=
  if d.any (fun p => p.1 = k) then
    d.map (fun p => if p.1 = k then (k, v) else p)
  else
    d ++ [(k, v)]

/-- Python `{**a, **b}`: start from `a`, assign every entry of `b` in order. -/
def pyMerge (a b : Obj) : Obj :=
  b.foldl (fun acc p => pyInsert acc p.1 p.2) a

/-- A Python dict built from a list of assignments (dict comprehension /
assignment loop starting from an empty dict). -/
def pyDict (l : Obj) : Obj := pyMerge [] l

/-- Python `isinstance(v, (list, tuple))`. -/
def isArrB : JVal → Bool
  | .arr _ => true
  | _ => false

/-- Python `isinstance(v, dict)`. -/
def isObjB : JVal → Bool
  | .obj _ => true
  | _ => false

/-- The exclusion filter `{k: v for k, v in o.items() if k not in exclude}` (tidify.py line 126). -/
def exclFilter (exclude : List String) (o : Obj) : Obj :=
  o.filter (fun p => !(exclude.contains p.1))

/-- The array keys `[k for k, v in o.items() if isinstance(v, (list, tuple))]` (line 129). -/
def arraysOf (o : Obj) : List String :=
  (o.filter (fun p => isArrB p.2)).map Prod.fst

/-- The subobject keys `[k for k, v in o.items() if isinstance(v, dict)]` (line 130). -/
def subobjectsOf (o : Obj) : List String :=
  (o.filter (fun p => isObjB p.2)).map Prod.fst

/-- The elements of the array stored under a key (`remaining_data[array_key]`,
which is an array whenever the key was selected from `arraysOf`). -/
def arrElemsAt (o : Obj) (k : String) : List JVal :=
  match o.lookup k with
  | some (.arr es) => es
  | _ => []

/-- The fields of the object stored under a key (`remaining_data[subobject]`,
which is a dict whenever the key was selected from `subobjectsOf`). -/
def objFieldsAt (o : Obj) (k : String) : Obj :=
  match o.lookup k with
  | some (.obj f) => f
  | _ => []

/-- The renamed entries `{f"{prefixKey}{sep}{k}": v for k, v in fields.items()}` (lines 143, 163). -/
def renameFields (prefixKey sep : String) (fields : Obj) : Obj :=
  fields.map (fun p => (prefixKey ++ sep ++ p.1, p.2))

/-- The sibling entries `{k: v for k, v in o.items() if k != arrayKey}` (lines 144, 149). -/
def stripKey (o : Obj) (k : String) : Obj :=
  o.filter (fun p => p.1 != k)

/-- Python `enumerate(l)` starting at `i`. -/
def pyEnumFrom (i : Nat) : List JVal → List (Nat × JVal)
  | [] => []
  | x :: xs => (i, x) :: pyEnumFrom (i + 1) xs

/-- Python `enumerate(l)`. -/
def pyEnum (l : List JVal) : List (Nat × JVal) := pyEnumFrom 0 l

/-- The new remaining mapping built for one array element (lines 142-151): the
element's entries renamed with the `<arrayKey><sep>` prefix if it is a
mapping, else the bare `{arrayKey: element}`, merged with all sibling entries
except the array itself. -/
def nextRemaining (array_key sep : String) (o' : Obj) : JVal → Obj
  | .obj fields => pyMerge (renameFields array_key sep fields) (stripKey o' array_key)
  | e => pyMerge [(array_key, e)] (stripKey o' array_key)

/-- The new remaining mapping of the subobject branch (lines 158-165): every
subobject's entries renamed with its `<subobject><sep>` prefix, assigned into
one dict, then updated with all non-subobject entries. -/
def flattenSubobjects (sep : String) (o' : Obj) : Obj :=
  pyMerge
    (pyDict ((subobjectsOf o').flatMap (fun sk => renameFields sk sep (objFieldsAt o' sk))))
    (o'.filter (fun p => !((subobjectsOf o').contains p.1)))

/-- One step of `convert_to_tidy` (tidify.py lines 106-170), with an explicit
fuel bounding the recursion depth. Returns the list of flat records appended to
`tidy_data` by this call, in order. A scalar `remaining` value emits nothing
(a top-level scalar record makes the Python code raise a `TypeError` before
appending anything, and `None` falls through the `is not None` guard). -/
def tidyGo (fuel : Nat) (remaining : JVal) (fixed : Obj) (exclude : List String)
    (sep : String) : List Obj :=
  match fuel with
  | 0 => []
  | fuel + 1 =>
    match remaining with
    | .s _ => []
    | .arr rows =>
      -- lines 117-119: each element becomes record(s), with a fresh fixed
      -- context holding only its row index
      (pyEnum rows).flatMap (fun p =>
        tidyGo fuel p.2 [("row_index", .s (.i p.1))] exclude sep)
    | .obj o =>
      -- line 120: `remaining_data is not None and len(remaining_data) > 0`,
      -- tested before the exclusion filter (line 126) is applied
      if o.length > 0 then
        match arraysOf (exclFilter exclude o) with
        | array_key :: _ =>
          -- lines 132-156: expand only the first array key
          (pyEnum (arrElemsAt (exclFilter exclude o) array_key)).flatMap (fun q =>
            tidyGo fuel (.obj (nextRemaining array_key sep (exclFilter exclude o) q.2))
              (pyInsert fixed (array_key ++ sep ++ "index") (.s (.i q.1)))
              exclude sep)
        | [] =>
          match subobjectsOf (exclFilter exclude o) with
          | _ :: _ =>
            -- lines 157-166: flatten all subobjects in one step
            tidyGo fuel (.obj (flattenSubobjects sep (exclFilter exclude o))) fixed exclude sep
          | [] =>
            -- lines 167-170: terminal case, emit one flat record
            [pyMerge fixed (exclFilter exclude o)]
      else []

/-- Model of `convert_to_tidy(remaining_data, fixed_data, tidy_data, exclude, sep)`:
the records appended to `tidy_data`.  The fuel `sizeJ remaining` bounds the
recursion depth, since every recursive call strictly shrinks the remaining
value. -/
def convert_to_tidy (remaining : JVal) (fixed : Obj) (exclude : List String)
    (sep : String) : List Obj :=
  tidyGo (sizeJ remaining) remaining fixed exclude sep

/-- The flat records produced by `tidify(data, exclude=exclude, sep=sep)`
(line 50: `convert_to_tidy(data, {}, tidy_data, exclude, sep)`). -/
def tidyRecords (data : List JVal) (exclude : List String) (sep : String) : List Obj :=
  convert_to_tidy (.arr data) [] exclude sep

/-! ## The column comparator

`col_comparator` (tidify.py lines 64-103).  Python string primitives are
modelled over character lists: `str.split(sep)` for a non-empty `sep`
(`splitPieces`), `str.endswith(t)` (`pyEndsWith`), `str.count(sep)` (which for
non-empty `sep` equals `len(s.split(sep)) - 1`), and code-point-lexicographic
string comparison `s < t` (`pyStrLt`).  For `sep = ""` Python `str.split`
raises `ValueError`, so an empty separator is outside the modelled domain. -/

/-- Python `s.split(sep)` on character lists, for non-empty `sep`: scan left to
right for non-overlapping occurrences of `sep`.  The fuel is the length of the
scanned list, which bounds the number of steps. -/
def splitGo (sep : List Char) : Nat → List Char → List Char → List (List Char)
  | _, acc, [] => [acc.reverse]
  | 0, acc, s => [acc.reverse ++ s]
  | fuel + 1, acc, c :: rest =>
    if sep.isPrefixOf (c :: rest) then
      acc.reverse :: splitGo sep fuel [] ((c :: rest).drop sep.length)
    else
      splitGo sep fuel (c :: acc) rest

/-- Python `s.split(sep)` (non-empty `sep`), as a list of path segments. -/
def splitPieces (s sep : String) : List String :=
  (splitGo sep.data s.data.length [] s.data).map List.asString

/-- Python `s.count(sep)` for non-empty `sep`, i.e. `len(s.split(sep)) - 1`,
as an integer. -/
def sepCount (s sep : String) : Int :=
  ((splitPieces s sep).length : Int) - 1

/-- Python `s.endswith(t)`. -/
def pyEndsWith (s t : String) : Bool :=
  t.data.isSuffixOf s.data

/-- Python `s < t`: lexicographic comparison by Unicode code point, a proper
prefix being smaller. -/
def pyStrLt : List Char → List Char → Bool
  | [], [] => false
  | [], _ :: _ => true
  | _ :: _, [] => false
  | a :: as, b :: bs => if a < b then true else if b < a then false else pyStrLt as bs

/-- The sibling test of lines 91-95: the two paths minus their last segment
coincide, or one whole path equals the other minus its last segment. -/
def sibCond (item1 item2 sep : String) : Prop :=
  (splitPieces item1 sep).dropLast = (splitPieces item2 sep).dropLast
  ∨ splitPieces item1 sep = (splitPieces item2 sep).dropLast
  ∨ (splitPieces item1 sep).dropLast = splitPieces item2 sep

instance (item1 item2 sep : String) : Decidable (sibCond item1 item2 sep) := by
  unfold sibCond
  exact inferInstance

/-- Model of `col_comparator(item1, item2, sep=sep)` (tidify.py lines 64-103).  Negative
means `item1` sorts before `item2`.  Note that the sibling tie-break (lines
96-98) tests the literal suffix `".index"`, unlike the check of lines 73-77
which uses `sep`. -/
def col_comparator (item1 item2 : String) (sep : String) : Int :=
  if item1 = "row_index" then -1
  else if item2 = "row_index" then 1
  else if item1 = item2 ++ sep ++ "index" then -1
  else if item2 = item1 ++ sep ++ "index" then 1
  else if sepCount item1 sep ≠ sepCount item2 sep then
    sepCount item1 sep - sepCount item2 sep
  else if sibCond item1 item2 sep ∧ pyEndsWith item1 ".index" = true then -1
  else if sibCond item1 item2 sep ∧ pyEndsWith item2 ".index" = true then 1
  else if pyStrLt item2.data item1.data = true then 1
  else -1

/-! ## The column ordering

`tidify` (lines 48-61) collects the records, lets pandas infer the column set,
and sorts it with `cols.sort(key=cmp_to_key(partial(col_comparator, sep=sep)))`.

* `pandas.DataFrame.from_records` on a list of dicts orders the columns by
  first appearance across the records (modelled by `colsOf`).
* CPython's `list.sort` on fewer than 64 elements computes one run: it finds
  the maximal initial ascending run (or a strictly descending run, which it
  reverses), then binary-insertion-sorts the remaining elements into it
  (`binarysort` in CPython's `listobject.c`).  `pySort` models exactly that;
  the claims below are settled on column lists well under 64 entries, where
  the model coincides with CPython.
-/

/-- Column universe in order of first appearance: add the keys of one record. -/
def addCols (acc : List String) (r : Obj) : List String :=
  r.foldl (fun acc p => if acc.contains p.1 then acc else acc ++ [p.1]) acc

/-- Column universe of a record list, in order of first appearance
(pandas `DataFrame.from_records` column inference). -/
def colsOf (recs : List Obj) : List String :=
  recs.foldl addCols []

/-- CPython's binary search for the insertion point of `pivot` in the sorted
prefix `a[l:r]` (stable: after equal elements).  The fuel bounds `r - l`, which
strictly decreases at each step. -/
def binSearchGo (cmp : String → String → Int) (pivot : String) (a : List String) :
    Nat → Nat → Nat → Nat
  | 0, l, _ => l
  | fuel + 1, l, r =>
    if l < r then
      if cmp pivot (a.getD (l + (r - l) / 2) "") < 0 then
        binSearchGo cmp pivot a fuel l (l + (r - l) / 2)
      else binSearchGo cmp pivot a fuel (l + (r - l) / 2 + 1) r
    else l

/-- Insertion point of `pivot` in the sorted list `a` (searching `a[0:r]`). -/
def binInsertPos (cmp : String → String → Int) (pivot : String) (a : List String)
    (r : Nat) : Nat :=
  binSearchGo cmp pivot a r 0 r

/-- Insert an element at a given position. -/
def insertAt (p : Nat) (x : String) (l : List String) : List String :=
  l.take p ++ x :: l.drop p

/-- Binary-insertion-sort the elements of `rest`, in order, into `sorted`. -/
def binInsertAll (cmp : String → String → Int) (sorted rest : List String) :
    List String :=
  rest.foldl (fun s x => insertAt (binInsertPos cmp x s s.length) x s) sorted

/-- Extend the initial ascending run: keep taking elements `z` with
`¬ cmp z prev < 0`.  Returns the extension and the remaining elements. -/
def ascRun (cmp : String → String → Int) (prev : String) :
    List String → List String × List String
  | [] => ([], [])
  | z :: zs =>
    if cmp z prev < 0 then ([], z :: zs)
    else (z :: (ascRun cmp z zs).1, (ascRun cmp z zs).2)

/-- Extend the initial strictly descending run. -/
def descRun (cmp : String → String → Int) (prev : String) :
    List String → List String × List String
  | [] => ([], [])
  | z :: zs =>
    if cmp z prev < 0 then (z :: (descRun cmp z zs).1, (descRun cmp z zs).2)
    else ([], z :: zs)

/-- CPython `list.sort(key=cmp_to_key(cmp))` for lists of fewer than 64
elements: one run (ascending, or strictly descending then reversed), then
binary insertion of the rest. -/
def pySort (cmp : String → String → Int) (l : List String) : List String :=
  match l with
  | [] => []
  | [x] => [x]
  | x :: y :: rest =>
    if cmp y x < 0 then
      binInsertAll cmp (x :: y :: (descRun cmp y rest).1).reverse (descRun cmp y rest).2
    else
      binInsertAll cmp (x :: y :: (ascRun cmp y rest).1) (ascRun cmp y rest).2

/-- The ordered column list of the dataframe returned by
`tidify(data, exclude=exclude, sep=sep)` (lines 57-61). -/
def tidifyColumns (data : List JVal) (exclude : List String) (sep : String) :
    List String :=
  pySort (fun a b => col_comparator a b sep) (colsOf (tidyRecords data exclude sep))

/-- The `(ordered columns, rows)` pair handed to the tabular sink by the
orchestrator `tidify`. -/
def tidify (data : List JVal) (exclude : List String) (sep : String) :
    List String × List Obj :=
  (tidifyColumns data exclude sep, tidyRecords data exclude sep)

/-- Scenario B input: `[{"a": 1, "b": [{"sub1": 1, "sub2": 2}, {"sub1": 3, "sub2": 4}]}]`. -/
def scenarioB : List JVal :=
  [.obj [("a", .s (.i 1)),
         ("b", .arr [.obj [("sub1", .s (.i 1)), ("sub2", .s (.i 2))],
                     .obj [("sub1", .s (.i 3)), ("sub2", .s (.i 4))]])]]

/-- C9 witness input: `[{"b": [{"index": 99}]}]`. -/
def scenarioIndexField : List JVal := [.obj [("b", .arr [.obj [("index", .s (.i 99))]])]]

/-- A value is a scalar leaf. -/
def IsScalar (v : JVal) : Prop := ∃ sv, v = JVal.s sv

/-- Boolean test for a scalar leaf. -/
def isScalarB : JVal → Bool
  | .s _ => true
  | _ => false

/-- The value shapes allowed in C2's flat objects: a scalar, or an array of
scalars (no deeper nesting). -/
def flatValB : JVal → Bool
  | .s _ => true
  | .arr es => es.all isScalarB
  | .obj _ => false

/-- Length of an array value. -/
def arrLen : JVal → Nat
  | .arr es => es.length
  | _ => 0

/-- The product `l1 * l2 * ... * ln` over the array-valued entries of an object. -/
def rowProduct (o : Obj) : Nat :=
  (o.filter (fun p => isArrB p.2)).foldr (fun p acc => arrLen p.2 * acc) 1

/-- Scenario C record: `{"a": [1, 2], "b": [10, 20]}`. -/
def scenarioCrec : Obj :=
  [("a", .arr [.s (.i 1), .s (.i 2)]), ("b", .arr [.s (.i 10), .s (.i 20)])]

/-- A key contributed by the fixed context: the reserved `row_index`, or a
positional index column `<arrayKey><sep>index`. -/
def IdxKey (sep k : String) : Prop :=
  k = "row_index" ∨ ∃ s, k = s ++ sep ++ "index"

/-- A record whose first entry has the key `row_index` (every fixed context
descends from `{"row_index": i}` and extensions keep its first key). -/
def HeadRow (r : Obj) : Prop := ∃ v t, r = ("row_index", v) :: t

/-!
## Dict lemmas
-/

theorem mem_pyInsert {q : String × JVal} {d : Obj} {k : String} {v : JVal}
    (hq : q ∈ pyInsert d k v) : q ∈ d ∨ q = (k, v) := by
  unfold pyInsert at hq
  split at hq
  · obtain ⟨p, hp, hpe⟩ := List.mem_map.mp hq
    by_cases hk : p.1 = k
    · rw [if_pos hk] at hpe
      exact Or.inr hpe.symm
    · rw [if_neg hk] at hpe
      exact Or.inl (hpe ▸ hp)
  · rcases List.mem_append.mp hq with h | h
    · exact Or.inl h
    · exact Or.inr (List.mem_singleton.mp h)

theorem mem_pyMerge {q : String × JVal} : ∀ {b a : Obj}, q ∈ pyMerge a b → q ∈ a ∨ q ∈ b
  | [], _, hq => Or.inl hq
  | p :: b, a, hq => by
    have step : pyMerge a (p :: b) = pyMerge (pyInsert a p.1 p.2) b := rfl
    rw [step] at hq
    rcases mem_pyMerge hq with h | h
    · rcases mem_pyInsert h with h' | h'
      · exact Or.inl h'
      · exact Or.inr (by rw [h']; exact List.mem_cons_self _ _)
    · exact Or.inr (List.mem_cons_of_mem _ h)

/-- Inserting either keeps the key list unchanged (replacement, the key was
already present) or appends the new key at the end. -/
theorem keysO_pyInsert (d : Obj) (k : String) (v : JVal) :
    keysO (pyInsert d k v) = keysO d ∧ k ∈ keysO d
    ∨ keysO (pyInsert d k v) = keysO d ++ [k] ∧ k ∉ keysO d := by
  by_cases h : d.any (fun p => p.1 = k) = true
  · left
    unfold pyInsert
    rw [if_pos h]
    constructor
    · unfold keysO
      rw [List.map_map]
      apply List.map_congr_left
      intro p _
      by_cases hk : p.1 = k
      · simp [hk]
      · simp [hk]
    · simp only [List.any_eq_true, decide_eq_true_eq] at h
      obtain ⟨p, hp, hpk⟩ := h
      exact hpk ▸ List.mem_map_of_mem Prod.fst hp
  · right
    unfold pyInsert
    rw [if_neg h]
    simp only [List.any_eq_true, decide_eq_true_eq, not_exists, not_and] at h
    constructor
    · simp [keysO]
    · intro hk
      obtain ⟨p, hp, hpk⟩ := List.mem_map.mp hk
      exact h p hp hpk

theorem mem_keysO_pyInsert {k' : String} {d : Obj} {k : String} {v : JVal}
    (hk' : k' ∈ keysO d) : k' ∈ keysO (pyInsert d k v) := by
  rcases keysO_pyInsert d k v with ⟨he, _⟩ | ⟨he, _⟩
  · rwa [he]
  · rw [he]; exact List.mem_append_left _ hk'

theorem self_mem_keysO_pyInsert (d : Obj) (k : String) (v : JVal) :
    k ∈ keysO (pyInsert d k v) := by
  rcases keysO_pyInsert d k v with ⟨he, hm⟩ | ⟨he, _⟩
  · rwa [he]
  · rw [he]; exact List.mem_append_right _ (List.mem_singleton.mpr rfl)

theorem keysO_pyInsert_sub {k' : String} {d : Obj} {k : String} {v : JVal}
    (hk' : k' ∈ keysO (pyInsert d k v)) : k' ∈ keysO d ∨ k' = k := by
  obtain ⟨p, hp, hpk⟩ := List.mem_map.mp hk'
  rcases mem_pyInsert hp with h | h
  · exact Or.inl (hpk ▸ List.mem_map_of_mem Prod.fst h)
  · right; rw [← hpk, h]

theorem nodup_keysO_pyInsert {d : Obj} {k : String} {v : JVal}
    (hd : (keysO d).Nodup) : (keysO (pyInsert d k v)).Nodup := by
  rcases keysO_pyInsert d k v with ⟨he, _⟩ | ⟨he, hm⟩
  · rwa [he]
  · rw [he]
    exact List.Nodup.append hd (List.nodup_singleton k) (List.disjoint_singleton.mpr hm)

theorem mem_keysO_pyMerge_left {k : String} : ∀ {b a : Obj},
    k ∈ keysO a → k ∈ keysO (pyMerge a b)
  | [], _, hk => hk
  | _ :: b, _, hk =>
    mem_keysO_pyMerge_left (b := b) (mem_keysO_pyInsert hk)

theorem mem_keysO_pyMerge_sub {k : String} {a b : Obj}
    (hk : k ∈ keysO (pyMerge a b)) : k ∈ keysO a ∨ k ∈ keysO b := by
  obtain ⟨p, hp, hpk⟩ := List.mem_map.mp hk
  rcases mem_pyMerge hp with h | h
  · exact Or.inl (hpk ▸ List.mem_map_of_mem Prod.fst h)
  · exact Or.inr (hpk ▸ List.mem_map_of_mem Prod.fst h)

theorem nodup_keysO_pyMerge : ∀ {b a : Obj},
    (keysO a).Nodup → (keysO (pyMerge a b)).Nodup
  | [], _, ha => ha
  | _ :: b, _, ha =>
    nodup_keysO_pyMerge (b := b) (nodup_keysO_pyInsert ha)

/-- Keys of an entry of the exclusion-filtered dict are not excluded. -/
theorem mem_keysO_exclFilter {k : String} {exclude : List String} {o : Obj}
    (hk : k ∈ keysO (exclFilter exclude o)) : k ∉ exclude := by
  obtain ⟨p, hp, hpk⟩ := List.mem_map.mp hk
  have hf := List.of_mem_filter hp
  rw [hpk] at hf
  simpa using hf

/-- A value that is neither array-like nor dict-like is a scalar. -/
theorem scalar_of_not_arr_not_obj {v : JVal} (ha : isArrB v = false)
    (ho : isObjB v = false) : IsScalar v := by
  cases v with
  | s sv => exact ⟨sv, rfl⟩
  | obj f => simp [isObjB] at ho
  | arr l => simp [isArrB] at ha

theorem no_arrays_of_arraysOf_nil {o : Obj} (h : arraysOf o = []) :
    ∀ p ∈ o, isArrB p.2 = false := by
  intro p hp
  unfold arraysOf at h
  rw [List.map_eq_nil_iff] at h
  by_contra hb
  have hmem : p ∈ o.filter (fun p => isArrB p.2) :=
    List.mem_filter.mpr ⟨hp, by simpa using hb⟩
  rw [h] at hmem
  exact absurd hmem (List.not_mem_nil p)

theorem no_objects_of_subobjectsOf_nil {o : Obj} (h : subobjectsOf o = []) :
    ∀ p ∈ o, isObjB p.2 = false := by
  intro p hp
  unfold subobjectsOf at h
  rw [List.map_eq_nil_iff] at h
  by_contra hb
  have hmem : p ∈ o.filter (fun p => isObjB p.2) :=
    List.mem_filter.mpr ⟨hp, by simpa using hb⟩
  rw [h] at hmem
  exact absurd hmem (List.not_mem_nil p)

/-!
## Step equations of the engine
-/

@[simp] theorem exclFilter_nil (o : Obj) : exclFilter [] o = o := by
  simp [exclFilter]

theorem tidyGo_succ_arr (n : Nat) (rows : List JVal) (fixed : Obj)
    (ex : List String) (sep : String) :
    tidyGo (n + 1) (.arr rows) fixed ex sep =
      (pyEnum rows).flatMap (fun p =>
        tidyGo n p.2 [("row_index", .s (.i p.1))] ex sep) := rfl

theorem tidyGo_succ_obj_array (n : Nat) (o fixed : Obj) (ex : List String)
    (sep : String) (ak : String) (tl : List String)
    (hlen : 0 < o.length) (harr : arraysOf (exclFilter ex o) = ak :: tl) :
    tidyGo (n + 1) (.obj o) fixed ex sep =
      (pyEnum (arrElemsAt (exclFilter ex o) ak)).flatMap (fun q =>
        tidyGo n (.obj (nextRemaining ak sep (exclFilter ex o) q.2))
          (pyInsert fixed (ak ++ sep ++ "index") (.s (.i q.1))) ex sep) := by
  rw [tidyGo, if_pos hlen, harr]

theorem tidyGo_succ_obj_sub (n : Nat) (o fixed : Obj) (ex : List String)
    (sep : String) (sk : String) (tl : List String)
    (hlen : 0 < o.length) (harr : arraysOf (exclFilter ex o) = [])
    (hsub : subobjectsOf (exclFilter ex o) = sk :: tl) :
    tidyGo (n + 1) (.obj o) fixed ex sep =
      tidyGo n (.obj (flattenSubobjects sep (exclFilter ex o))) fixed ex sep := by
  rw [tidyGo, if_pos hlen, harr, hsub]

theorem tidyGo_succ_obj_terminal (n : Nat) (o fixed : Obj) (ex : List String)
    (sep : String)
    (hlen : 0 < o.length) (harr : arraysOf (exclFilter ex o) = [])
    (hsub : subobjectsOf (exclFilter ex o) = []) :
    tidyGo (n + 1) (.obj o) fixed ex sep = [pyMerge fixed (exclFilter ex o)] := by
  rw [tidyGo, if_pos hlen, harr, hsub]

/-!
## Lemmas for the cartesian-product count (C2)
-/

theorem pyInsert_eq_append {d : Obj} {k : String} {v : JVal} (hk : k ∉ keysO d) :
    pyInsert d k v = d ++ [(k, v)] := by
  have h : ¬ (d.any (fun p => p.1 = k) = true) := by
    simp only [List.any_eq_true, decide_eq_true_eq, not_exists, not_and]
    intro p hp hpk
    exact hk (hpk ▸ List.mem_map_of_mem Prod.fst hp)
  unfold pyInsert
  rw [if_neg h]

theorem pyMerge_eq_append : ∀ {b a : Obj}, (∀ p ∈ b, p.1 ∉ keysO a) →
    (keysO b).Nodup → pyMerge a b = a ++ b
  | [], a, _, _ => by simp [pyMerge]
  | p :: b, a, hdisj, hnd => by
    have hcons := List.nodup_cons.mp hnd
    have step : pyMerge a (p :: b) = pyMerge (pyInsert a p.1 p.2) b := rfl
    rw [step, pyInsert_eq_append (hdisj p (List.mem_cons_self p b))]
    rw [pyMerge_eq_append (b := b) ?_ hcons.2]
    · rw [List.append_assoc, List.singleton_append]
    · intro q hq
      rw [keysO, List.map_append]
      intro hmem
      rcases List.mem_append.mp hmem with h | h
      · exact hdisj q (List.mem_cons_of_mem p hq) h
      · have hq1 : q.1 = p.1 := by simpa [keysO] using h
        exact hcons.1 (hq1 ▸ List.mem_map_of_mem Prod.fst hq)

theorem lookup_of_mem_nodup : ∀ {o : Obj}, (keysO o).Nodup →
    ∀ {p : String × JVal}, p ∈ o → o.lookup p.1 = some p.2
  | [], _, _, hp => absurd hp (List.not_mem_nil _)
  | (qk, qv) :: o, hnd, p, hp => by
    have hcons := List.nodup_cons.mp hnd
    rcases List.mem_cons.mp hp with h | h
    · rw [h]
      simp [List.lookup]
    · have hne : (p.1 == qk) = false := by
        rw [beq_eq_false_iff_ne]
        intro he
        exact hcons.1 (List.mem_map.mpr ⟨p, h, he⟩)
      simp only [List.lookup, hne]
      exact lookup_of_mem_nodup hcons.2 h

theorem nodup_keysO_filter {o : Obj} (q : String × JVal → Bool)
    (hnd : (keysO o).Nodup) : (keysO (o.filter q)).Nodup :=
  List.Nodup.sublist (List.Sublist.map Prod.fst (List.filter_sublist o)) hnd

theorem entry_eq_of_nodup : ∀ {o : Obj}, (keysO o).Nodup →
    ∀ {p p' : String × JVal}, p ∈ o → p' ∈ o → p.1 = p'.1 → p = p'
  | [], _, _, _, hp, _, _ => absurd hp (List.not_mem_nil _)
  | q :: o, hnd, p, p', hp, hp', hk => by
    have hcons := List.nodup_cons.mp hnd
    rcases List.mem_cons.mp hp with h | h <;> rcases List.mem_cons.mp hp' with h' | h'
    · rw [h, h']
    · exact absurd ((h ▸ hk) ▸ List.mem_map_of_mem Prod.fst h') hcons.1
    · exact absurd ((h' ▸ hk.symm) ▸ List.mem_map_of_mem Prod.fst h) hcons.1
    · exact entry_eq_of_nodup hcons.2 h h' hk

theorem pyEnumFrom_length : ∀ (i : Nat) (l : List JVal),
    (pyEnumFrom i l).length = l.length
  | _, [] => rfl
  | i, _ :: xs => by
    rw [pyEnumFrom, List.length_cons, List.length_cons, pyEnumFrom_length (i + 1) xs]

theorem snd_mem_of_mem_pyEnumFrom : ∀ {i : Nat} {l : List JVal} {x : Nat × JVal},
    x ∈ pyEnumFrom i l → x.2 ∈ l
  | _, [], _, hx => absurd hx (List.not_mem_nil _)
  | i, y :: ys, x, hx => by
    rcases List.mem_cons.mp hx with h | h
    · rw [h]; exact List.mem_cons_self _ _
    · exact List.mem_cons_of_mem _ (snd_mem_of_mem_pyEnumFrom h)

theorem length_flatMap_const {α : Type} {f : α → List Obj} {c : Nat} :
    ∀ {l : List α}, (∀ x ∈ l, (f x).length = c) → (l.flatMap f).length = l.length * c
  | [], _ => by simp
  | x :: l, h => by
    rw [List.flatMap_cons, List.length_append, h x (List.mem_cons_self x l),
      length_flatMap_const (fun y hy => h y (List.mem_cons_of_mem x hy)),
      List.length_cons, Nat.succ_mul, Nat.add_comm]

theorem subobjectsOf_nil_of_flat {o : Obj} (h : ∀ p ∈ o, flatValB p.2 = true) :
    subobjectsOf o = [] := by
  unfold subobjectsOf
  rw [List.map_eq_nil_iff, List.filter_eq_nil_iff]
  intro p hp
  have hf := h p hp
  cases hv : p.2 with
  | s sv => simp [isObjB, hv]
  | arr es => simp [isObjB, hv]
  | obj f => rw [hv] at hf; simp [flatValB] at hf

/-- A scalar element takes the non-mapping branch of `nextRemaining`. -/
theorem nextRemaining_scalar {ak sep : String} {o : Obj} {e : JVal}
    (he : isScalarB e = true) :
    nextRemaining ak sep o e = pyMerge [(ak, e)] (stripKey o ak) := by
  cases e with
  | s sv => rfl
  | obj f => simp [isScalarB] at he
  | arr l => simp [isScalarB] at he

/-- A scalar value satisfies the flat-shape predicate. -/
theorem flatValB_of_scalar {e : JVal} (he : isScalarB e = true) : flatValB e = true := by
  cases e with
  | s sv => rfl
  | obj f => simp [isScalarB] at he
  | arr l => simp [isScalarB] at he

/-- A scalar value is not array-like. -/
theorem not_arr_of_scalar {e : JVal} (he : isScalarB e = true) : isArrB e = false := by
  cases e with
  | s sv => rfl
  | obj f => simp [isScalarB] at he
  | arr l => simp [isScalarB] at he

theorem length_le_sizeFields : ∀ o : Obj, o.length ≤ sizeFields o
  | [] => by simp [sizeFields]
  | p :: o => by
    rw [List.length_cons, sizeFields]
    have := length_le_sizeFields o
    omega

theorem length_lt_sizeJ_obj (o : Obj) : o.length < sizeJ (.obj o) := by
  rw [sizeJ]
  have := length_le_sizeFields o
  omega

/-- Cartesian-product row count for a flat object (values are scalars plus
arrays of scalars, no deeper nesting, distinct keys, empty exclusion set):
expanding the first array multiplies the row count by its length, so the
total is the product of the array lengths; every emitted record keeps the
fixed-context keys, has pairwise-distinct keys, and carries one
`<arrayKey><sep>index` column per array entry.  Fuel induction: the fuel only
needs to exceed the number of array entries, which strictly decreases. -/
theorem tidyGo_cartesian : ∀ (fuel : Nat) (o fixed : Obj) (sep : String),
    (o.filter (fun p => isArrB p.2)).length < fuel →
    o ≠ [] → (keysO o).Nodup → (keysO fixed).Nodup →
    (∀ p ∈ o, flatValB p.2 = true) →
    (tidyGo fuel (.obj o) fixed [] sep).length = rowProduct o
    ∧ ∀ rec ∈ tidyGo fuel (.obj o) fixed [] sep,
        (keysO rec).Nodup ∧ (∀ k ∈ keysO fixed, k ∈ keysO rec)
        ∧ (∀ p ∈ o, isArrB p.2 = true → (p.1 ++ sep ++ "index") ∈ keysO rec) := by
  intro fuel
  induction fuel with
  | zero =>
    intro o fixed sep hfuel
    exact absurd hfuel (Nat.not_lt_zero _)
  | succ n ih =>
    intro o fixed sep hfuel hne hnd hfnd hflat
    have hlen : 0 < o.length := List.length_pos.mpr hne
    cases hF : o.filter (fun p => isArrB p.2) with
    | nil =>
      have harr : arraysOf (exclFilter [] o) = [] := by
        rw [exclFilter_nil]
        unfold arraysOf
        rw [hF]
        rfl
      have hsub : subobjectsOf (exclFilter [] o) = [] := by
        rw [exclFilter_nil]
        exact subobjectsOf_nil_of_flat hflat
      rw [tidyGo_succ_obj_terminal n o fixed [] sep hlen harr hsub, exclFilter_nil]
      refine ⟨?_, ?_⟩
      · rw [List.length_singleton]
        unfold rowProduct
        rw [hF]
        rfl
      · intro rec hrec
        rw [List.mem_singleton.mp hrec]
        refine ⟨nodup_keysO_pyMerge hfnd, fun k hk => mem_keysO_pyMerge_left hk, ?_⟩
        intro p hp hpa
        have hmem : p ∈ o.filter (fun p => isArrB p.2) := List.mem_filter.mpr ⟨hp, hpa⟩
        rw [hF] at hmem
        exact absurd hmem (List.not_mem_nil p)
    | cons pa Ftl =>
      -- basic facts about the first array entry
      have hpaF : pa ∈ o.filter (fun p => isArrB p.2) := by
        rw [hF]; exact List.mem_cons_self _ _
      have hpao : pa ∈ o := List.mem_of_mem_filter hpaF
      have hpaArr : isArrB pa.2 = true := by
        have hq := List.of_mem_filter hpaF
        simpa using hq
      have hFnd : (keysO (o.filter (fun p => isArrB p.2))).Nodup := nodup_keysO_filter _ hnd
      rw [hF] at hFnd
      have hFcons := List.nodup_cons.mp hFnd
      obtain ⟨es, hes⟩ : ∃ es, pa.2 = JVal.arr es := by
        cases hv : pa.2 with
        | s sv => rw [hv] at hpaArr; simp [isArrB] at hpaArr
        | obj f => rw [hv] at hpaArr; simp [isArrB] at hpaArr
        | arr l => exact ⟨l, rfl⟩

      have hscal : es.all isScalarB = true := by
        have hf := hflat pa hpao
        rw [hes] at hf
        simpa [flatValB] using hf
      -- the dispatch expands pa.1
      have harr : arraysOf (exclFilter [] o) = pa.1 :: Ftl.map Prod.fst := by
        rw [exclFilter_nil]
        unfold arraysOf
        rw [hF]
        rfl
      rw [tidyGo_succ_obj_array n o fixed [] sep pa.1 (Ftl.map Prod.fst) hlen harr,
        exclFilter_nil]
      have helems : arrElemsAt o pa.1 = es := by
        unfold arrElemsAt
        rw [lookup_of_mem_nodup hnd hpao, hes]
      rw [helems]
      -- the stripped siblings
      have hrestne : ∀ p ∈ stripKey o pa.1, p.1 ≠ pa.1 := by
        intro p hp
        have hm := List.of_mem_filter hp
        simpa using hm
      have hrestsub : ∀ p ∈ stripKey o pa.1, p ∈ o := fun p hp => List.mem_of_mem_filter hp
      have hrestnd : (keysO (stripKey o pa.1)).Nodup := nodup_keysO_filter _ hnd
      have hpanotrest : pa.1 ∉ keysO (stripKey o pa.1) := by
        intro hk
        obtain ⟨p, hp, hpk⟩ := List.mem_map.mp hk
        exact hrestne p hp hpk
      have hFtlkeys : ∀ p ∈ Ftl, p.1 ≠ pa.1 := by
        intro p hp hk
        exact hFcons.1 (List.mem_map.mpr ⟨p, hp, hk⟩)
      -- arrays among the stripped siblings are exactly the tail Ftl
      have hstriparr : (stripKey o pa.1).filter (fun p => isArrB p.2) = Ftl := by
        have h1 : (stripKey o pa.1).filter (fun p => isArrB p.2)
            = o.filter (fun p => isArrB p.2 && (p.1 != pa.1)) := by
          unfold stripKey
          rw [List.filter_filter]
        have h2 : (o.filter (fun p => isArrB p.2)).filter (fun p => p.1 != pa.1)
            = o.filter (fun p => (p.1 != pa.1) && isArrB p.2) := by
          rw [List.filter_filter]
        have h3 : o.filter (fun p => isArrB p.2 && (p.1 != pa.1))
            = o.filter (fun p => (p.1 != pa.1) && isArrB p.2) :=
          List.filter_congr (fun p _ => Bool.and_comm _ _)
        rw [h1, h3, ← h2, hF, List.filter_cons_of_neg (by simp)]
        exact List.filter_eq_self.mpr (fun p hp => by
          have hne' := hFtlkeys p hp
          simpa using hne')
      -- products
      have hprod : rowProduct o = es.length * Ftl.foldr (fun p acc => arrLen p.2 * acc) 1 := by
        unfold rowProduct
        rw [hF]
        show arrLen pa.2 * _ = _
        rw [hes]
        rfl
      have hprodrec : ∀ e : JVal, isScalarB e = true →
          rowProduct ((pa.1, e) :: stripKey o pa.1)
            = Ftl.foldr (fun p acc => arrLen p.2 * acc) 1 := by
        intro e he
        unfold rowProduct
        rw [List.filter_cons_of_neg (by simp [not_arr_of_scalar he]), hstriparr]
      -- the per-element remaining mapping
      have hremeq : ∀ e : JVal, isScalarB e = true →
          nextRemaining pa.1 sep o e = (pa.1, e) :: stripKey o pa.1 := by
        intro e he
        rw [nextRemaining_scalar he]
        rw [pyMerge_eq_append ?_ hrestnd]
        · rfl
        · intro p hp hmem
          have hp1 : p.1 = pa.1 := by simpa [keysO] using hmem
          exact hrestne p hp hp1
      -- the induction hypothesis applied to one element
      have hIH : ∀ x : Nat × JVal, x ∈ pyEnum es →
          (tidyGo n (.obj ((pa.1, x.2) :: stripKey o pa.1))
              (pyInsert fixed (pa.1 ++ sep ++ "index") (.s (.i x.1))) [] sep).length
            = Ftl.foldr (fun p acc => arrLen p.2 * acc) 1
          ∧ ∀ rec ∈ tidyGo n (.obj ((pa.1, x.2) :: stripKey o pa.1))
              (pyInsert fixed (pa.1 ++ sep ++ "index") (.s (.i x.1))) [] sep,
              (keysO rec).Nodup
              ∧ (∀ k ∈ keysO (pyInsert fixed (pa.1 ++ sep ++ "index") (.s (.i x.1))),
                  k ∈ keysO rec)
              ∧ (∀ p ∈ (pa.1, x.2) :: stripKey o pa.1, isArrB p.2 = true →
                  (p.1 ++ sep ++ "index") ∈ keysO rec) := by
        intro x hx
        have hx2 : x.2 ∈ es := snd_mem_of_mem_pyEnumFrom hx
        have hxs : isScalarB x.2 = true := List.all_eq_true.mp hscal x.2 hx2
        have hfuel' : (((pa.1, x.2) :: stripKey o pa.1).filter
            (fun p => isArrB p.2)).length < n := by
          rw [List.filter_cons_of_neg (by simp [not_arr_of_scalar hxs]), hstriparr]
          rw [hF, List.length_cons] at hfuel
          omega
        have hnd' : (keysO ((pa.1, x.2) :: stripKey o pa.1)).Nodup :=
          List.nodup_cons.mpr ⟨hpanotrest, hrestnd⟩
        have hflat' : ∀ p ∈ (pa.1, x.2) :: stripKey o pa.1, flatValB p.2 = true := by
          intro p hp
          rcases List.mem_cons.mp hp with h | h
          · rw [h]; exact flatValB_of_scalar hxs
          · exact hflat p (hrestsub p h)
        have h := ih ((pa.1, x.2) :: stripKey o pa.1)
          (pyInsert fixed (pa.1 ++ sep ++ "index") (.s (.i x.1))) sep hfuel'
          (List.cons_ne_nil _ _) hnd' (nodup_keysO_pyInsert hfnd) hflat'
        rw [hprodrec x.2 hxs] at h
        exact h
      refine ⟨?_, ?_⟩
      · -- row count
        rw [length_flatMap_const (fun x hx => by rw [hremeq x.2 (List.all_eq_true.mp hscal x.2 (snd_mem_of_mem_pyEnumFrom hx))]; exact (hIH x hx).1)]
        rw [show (pyEnum es).length = es.length from pyEnumFrom_length 0 es]
        exact hprod.symm
      · -- record shape
        intro rec hrec
        obtain ⟨x, hx, hrecx⟩ := List.mem_flatMap.mp hrec
        have hxs : isScalarB x.2 = true :=
          List.all_eq_true.mp hscal x.2 (snd_mem_of_mem_pyEnumFrom hx)
        rw [hremeq x.2 hxs] at hrecx
        obtain ⟨hndrec, hsubkeys, harrkeys⟩ := (hIH x hx).2 rec hrecx
        refine ⟨hndrec, fun k hk => hsubkeys k (mem_keysO_pyInsert hk), ?_⟩
        intro p hp hparr
        by_cases hpk : p.1 = pa.1
        · rw [hpk]
          exact hsubkeys (pa.1 ++ sep ++ "index") (self_mem_keysO_pyInsert fixed _ _)
        · have hprest : p ∈ stripKey o pa.1 :=
            List.mem_filter.mpr ⟨hp, by simpa using hpk⟩
          exact harrkeys p (List.mem_cons_of_mem _ hprest) hparr

/-!
## Engine invariants (for C3 and C7)
-/

/-- Every record the engine emits has only scalar values, provided the carried
fixed context does (which holds at every top-level entry point). -/
theorem tidyGo_vals : ∀ (fuel : Nat) (r : JVal) (fixed : Obj) (ex : List String)
    (sep : String), (∀ q ∈ fixed, IsScalar q.2) →
    ∀ rec ∈ tidyGo fuel r fixed ex sep, ∀ q ∈ rec, IsScalar q.2 := by
  intro fuel
  induction fuel with
  | zero =>
    intro r fixed ex sep _ rec hrec
    simp [tidyGo] at hrec
  | succ n ih =>
    intro r fixed ex sep hfix rec hrec
    cases r with
    | s sv => simp [tidyGo] at hrec
    | arr rows =>
      rw [tidyGo] at hrec
      obtain ⟨p, _, hp2⟩ := List.mem_flatMap.mp hrec
      refine ih p.2 _ ex sep ?_ rec hp2
      intro q hq
      rw [List.mem_singleton.mp hq]
      exact ⟨.i p.1, rfl⟩
    | obj o =>
      rw [tidyGo] at hrec
      split at hrec
      · split at hrec
        · -- array branch
          obtain ⟨q, _, hq2⟩ := List.mem_flatMap.mp hrec
          refine ih _ _ ex sep ?_ rec hq2
          intro qq hqq
          rcases mem_pyInsert hqq with h | h
          · exact hfix qq h
          · rw [h]; exact ⟨.i q.1, rfl⟩
        · split at hrec
          · -- subobject branch
            exact ih _ _ ex sep hfix rec hrec
          · -- terminal branch
            rename_i x1 harr x2 hsub
            rw [List.mem_singleton.mp hrec]
            intro q hq
            rcases mem_pyMerge hq with h | h
            · exact hfix q h
            · exact scalar_of_not_arr_not_obj
                (no_arrays_of_arraysOf_nil harr q h)
                (no_objects_of_subobjectsOf_nil hsub q h)
      · exact absurd hrec (List.not_mem_nil rec)

/-- Every key of every record the engine emits is either not excluded (data
keys pass the exclusion filter of the level that emitted them) or an index key
contributed by the fixed context, provided the carried fixed context has only
index keys. -/
theorem tidyGo_keys : ∀ (fuel : Nat) (r : JVal) (fixed : Obj) (ex : List String)
    (sep : String), (∀ k ∈ keysO fixed, IdxKey sep k) →
    ∀ rec ∈ tidyGo fuel r fixed ex sep, ∀ k ∈ keysO rec, k ∉ ex ∨ IdxKey sep k := by
  intro fuel
  induction fuel with
  | zero =>
    intro r fixed ex sep _ rec hrec
    simp [tidyGo] at hrec
  | succ n ih =>
    intro r fixed ex sep hfix rec hrec
    cases r with
    | s sv => simp [tidyGo] at hrec
    | arr rows =>
      rw [tidyGo] at hrec
      obtain ⟨p, _, hp2⟩ := List.mem_flatMap.mp hrec
      refine ih p.2 _ ex sep ?_ rec hp2
      intro k hk
      rw [show k = "row_index" by simpa [keysO] using hk]
      exact Or.inl rfl
    | obj o =>
      rw [tidyGo] at hrec
      split at hrec
      · split at hrec
        · -- array branch
          rename_i x0 ak tl harr
          obtain ⟨q, _, hq2⟩ := List.mem_flatMap.mp hrec
          refine ih _ _ ex sep ?_ rec hq2
          intro k hk
          rcases keysO_pyInsert_sub hk with h | h
          · exact hfix k h
          · exact Or.inr ⟨ak, h⟩
        · split at hrec
          · -- subobject branch
            exact ih _ _ ex sep hfix rec hrec
          · -- terminal branch
            rw [List.mem_singleton.mp hrec]
            intro k hk
            rcases mem_keysO_pyMerge_sub hk with h | h
            · exact Or.inr (hfix k h)
            · exact Or.inl (mem_keysO_exclFilter h)
      · exact absurd hrec (List.not_mem_nil rec)

/-!
## Comparator lemmas
-/

theorem pyStrLt_irrefl : ∀ l : List Char, pyStrLt l l = false
  | [] => rfl
  | c :: cs => by
    simp only [pyStrLt, lt_irrefl, if_false]
    exact pyStrLt_irrefl cs

theorem pyStrLt_asymm : ∀ {l m : List Char}, pyStrLt l m = true → pyStrLt m l = false
  | [], [], h => by simp [pyStrLt] at h
  | [], _ :: _, _ => rfl
  | _ :: _, [], h => by simp [pyStrLt] at h
  | a :: as, b :: bs, h => by
    by_cases hab : a < b
    · have hba : ¬ b < a := lt_asymm hab
      simp [pyStrLt, hba, hab]
    · by_cases hba : b < a
      · simp [pyStrLt, hab, hba] at h
      · simp only [pyStrLt, hab, hba, if_false] at h ⊢
        exact pyStrLt_asymm h

/-- No string equals itself extended by the separator and `"index"`. -/
theorem self_ne_append_index (a sep : String) : a ≠ a ++ sep ++ "index" := by
  intro h
  have hl := congrArg String.length h
  rw [String.length_append, String.length_append] at hl
  have h5 : "index".length = 5 := rfl
  omega

/-- The sibling test holds between any string and itself. -/
theorem sibCond_refl (a sep : String) : sibCond a a sep := Or.inl rfl

/-!
## Claim theorems: the comparator
-/

/-- C10: for every pair of column names (any non-empty separator — Python
`str.split` raises on an empty one, which is outside the modelled domain) the
comparator returns a strictly negative or strictly positive integer, never 0;
in particular comparing a name with itself yields `-1`, so the comparator is
irreflexive as an ordering and not antisymmetric on equal inputs. -/
theorem comparator_never_zero (a b sep : String) (_hsep : sep ≠ "") :
    col_comparator a b sep ≠ 0 ∧ col_comparator a a sep = -1 := by
  refine ⟨?_, ?_⟩
  · unfold col_comparator
    split_ifs with h1 h2 h3 h4 h5 h6 h7 h8 <;> try decide
    exact sub_ne_zero_of_ne h5
  · unfold col_comparator
    split_ifs with h1 h2 h3 h4 h5 <;> first
      | rfl
      | (exact absurd h2 (self_ne_append_index a sep))
      | (exact absurd rfl h3)
      | (rw [pyStrLt_irrefl] at h5; exact absurd h5 (by decide))

/-- C10 witness: the theorem applied at `a = "x"`, `b = "y"`, `sep = "."`. -/
theorem comparator_never_zero_witness :
    col_comparator "x" "y" "." ≠ 0 ∧ col_comparator "x" "x" "." = -1 :=
  comparator_never_zero "x" "y" "." (by decide)

/-- C4 amended: when the comparator reaches its final tie-break (neither name
is `row_index`, neither equals the other plus `<sep>index`, separator counts
are equal, and the sibling/`.index` rule does not decide), the two column
names are ordered by ASCENDING lexicographic comparison of the full name: the
lexicographically smaller string sorts first.  (The claim's "reverse
lexicographic / greater string first" is refuted by
`final_tiebreak_not_reverse`.) -/
theorem final_tiebreak_ascending (a b sep : String)
    (h1 : a ≠ "row_index") (h2 : b ≠ "row_index")
    (h3 : a ≠ b ++ sep ++ "index") (h4 : b ≠ a ++ sep ++ "index")
    (h5 : sepCount a sep = sepCount b sep)
    (h6 : ¬(sibCond a b sep ∧ pyEndsWith a ".index" = true))
    (h7 : ¬(sibCond a b sep ∧ pyEndsWith b ".index" = true)) :
    (pyStrLt a.data b.data = true → col_comparator a b sep = -1)
    ∧ (pyStrLt b.data a.data = true → col_comparator a b sep = 1) := by
  unfold col_comparator
  rw [if_neg h1, if_neg h2, if_neg h3, if_neg h4, if_neg (not_not_intro h5),
    if_neg h6, if_neg h7]
  constructor
  · intro hlt
    rw [if_neg]
    rw [pyStrLt_asymm hlt]
    exact Bool.false_ne_true
  · intro hlt
    rw [if_pos hlt]

/-- C4 witness: the amended tie-break applied at `("a", "b", ".")`. -/
theorem final_tiebreak_ascending_witness : col_comparator "a" "b" "." = -1 :=
  (final_tiebreak_ascending "a" "b" "." (by decide) (by decide) (by decide)
    (by decide) (by decide) (by decide) (by decide)).1 (by decide)

/-- C8 amended: the sibling tie-break of the comparator recognizes an index
column by the literal suffix `".index"`, regardless of the separator argument
(only the immediate parent/child rule of lines 73-77 uses `sep`): whenever the
earlier rules do not fire, the sibling condition holds and the first name ends
with the literal `".index"`, the comparator returns `-1`.  With a separator
other than `"."` an `<arrayKey><sep>index` column is NOT recognized here, as
`sibling_rule_ignores_sep` shows. -/
theorem sibling_rule_literal_suffix (a b sep : String)
    (h1 : a ≠ "row_index") (h2 : b ≠ "row_index")
    (h3 : a ≠ b ++ sep ++ "index") (h4 : b ≠ a ++ sep ++ "index")
    (h5 : sepCount a sep = sepCount b sep)
    (hsib : sibCond a b sep) (hend : pyEndsWith a ".index" = true) :
    col_comparator a b sep = -1 := by
  unfold col_comparator
  rw [if_neg h1, if_neg h2, if_neg h3, if_neg h4, if_neg (not_not_intro h5),
    if_pos ⟨hsib, hend⟩]

/-- C8 witness: the literal-suffix sibling rule applied at
`("a.index", "a.b", ".")`. -/
theorem sibling_rule_literal_suffix_witness :
    col_comparator "a.index" "a.b" "." = -1 :=
  sibling_rule_literal_suffix "a.index" "a.b" "." (by decide) (by decide)
    (by decide) (by decide) (by decide) (by decide) (by decide)

/-!
## Claim theorems: concrete scenarios
-/

/-- C1: on Scenario B with empty exclusion set and default separator the engine
emits exactly two flat records, in order: the first maps `row_index ↦ 0`,
`a ↦ 1`, `b.index ↦ 0`, `b.sub1 ↦ 1`, `b.sub2 ↦ 2`, and the second maps
`row_index ↦ 0`, `a ↦ 1`, `b.index ↦ 1`, `b.sub1 ↦ 3`, `b.sub2 ↦ 4`.  The
records are stated with the exact key insertion order the code produces; the
`Perm` conjuncts restate their key sets in the claim's order (a record is a
mapping, so key order inside a record is immaterial). -/
theorem scenario_b_rows :
    tidyRecords scenarioB [] "." =
      [[("row_index", .s (.i 0)), ("b.index", .s (.i 0)), ("b.sub1", .s (.i 1)),
        ("b.sub2", .s (.i 2)), ("a", .s (.i 1))],
       [("row_index", .s (.i 0)), ("b.index", .s (.i 1)), ("b.sub1", .s (.i 3)),
        ("b.sub2", .s (.i 4)), ("a", .s (.i 1))]]
    ∧ (keysO [("row_index", JVal.s (.i 0)), ("b.index", .s (.i 0)), ("b.sub1", .s (.i 1)),
        ("b.sub2", .s (.i 2)), ("a", .s (.i 1))]).Perm
        ["row_index", "a", "b.index", "b.sub1", "b.sub2"]
    ∧ (keysO [("row_index", JVal.s (.i 0)), ("b.index", .s (.i 1)), ("b.sub1", .s (.i 3)),
        ("b.sub2", .s (.i 4)), ("a", .s (.i 1))]).Perm
        ["row_index", "a", "b.index", "b.sub1", "b.sub2"] :=
  ⟨rfl, by decide, by decide⟩

/-- C5 counterexample: for the input `[{"a": null}]` the engine does NOT emit
zero records: `None` is neither a list nor a dict, so it is carried through as
a scalar and the terminal case emits one record `{"row_index": 0, "a": null}`. -/
theorem null_scalar_emits_row :
    tidyRecords [.obj [("a", .s .null)]] [] "." =
      [[("row_index", .s (.i 0)), ("a", .s .null)]]
    ∧ (tidyRecords [.obj [("a", .s .null)]] [] ".").length = 1 :=
  ⟨rfl, rfl⟩

/-- C5 amended: `[{"a": {}}]` emits zero records (the empty mapping branch
vanishes silently), while `[{"a": null}]` emits exactly one record
`{"row_index": 0, "a": null}` — a null *value* inside a mapping is treated as
a scalar leaf, not dropped. -/
theorem empty_obj_drops_null_emits :
    tidyRecords [.obj [("a", .obj [])]] [] "." = []
    ∧ tidyRecords [.obj [("a", .s .null)]] [] "." =
        [[("row_index", .s (.i 0)), ("a", .s .null)]] :=
  ⟨rfl, rfl⟩

/-- C3 counterexample: with exclusion set `{"b.index"}` and input
`[{"b": [1]}]`, the emitted record still contains the key `"b.index"`, which is
equal to a path in the exclusion set: index keys are added to the fixed context
after the exclusion filter ran on the parent mapping, so they are never
filtered. -/
theorem exclusion_misses_index_key :
    ∃ rec, rec ∈ tidyRecords [.obj [("b", .arr [.s (.i 1)])]] ["b.index"] "."
      ∧ "b.index" ∈ keysO rec ∧ "b.index" ∈ ["b.index"] := by
  refine ⟨[("row_index", .s (.i 0)), ("b.index", .s (.i 0)), ("b", .s (.i 1))], ?_, ?_, ?_⟩
  · rw [show tidyRecords [.obj [("b", .arr [.s (.i 1)])]] ["b.index"] "." =
      [[("row_index", JVal.s (.i 0)), ("b.index", .s (.i 0)), ("b", .s (.i 1))]] from rfl]
    exact List.mem_singleton.mpr rfl
  · decide
  · decide

/-- C4 counterexample: at the final tie-break (reached for `"a"` vs `"b"` with
the default separator: neither is `row_index`, neither is the other plus
`.index`, both have zero separators, both end their sibling test without a
`.index` suffix) the comparator returns `-1` on `("a", "b")` and `1` on
`("b", "a")`: the lexicographically SMALLER string sorts first (ascending
order), not the greater one. -/
theorem final_tiebreak_not_reverse :
    col_comparator "a" "b" "." = -1 ∧ col_comparator "b" "a" "." = 1
    ∧ pyStrLt "a".data "b".data = true := ⟨rfl, rfl, rfl⟩

/-- C8 counterexample: with separator `"/"`, the sibling tie-break does not
recognize `"a/index"` as an index column (it tests the literal suffix
`".index"`), so `"a/index"` sorts AFTER its sibling `"a/b"` by the
lexicographic fallback; with the default separator the same shape sorts the
index column first. -/
theorem sibling_rule_ignores_sep :
    col_comparator "a/index" "a/b" "/" = 1
    ∧ col_comparator "a.index" "a.b" "." = -1 := ⟨rfl, rfl⟩

/-- C6 counterexample: for the input `[{"a": 1, "b": 2}, {"a": [1]}]` the
column universe in first-appearance order is
`["row_index", "a", "b", "a.index"]`, which is already pairwise-adjacently
ascending for the comparator (`row_index < a`, `a < b` lexicographically,
`b < a.index` by separator count), so the sort's initial-run detection leaves
it unchanged: in the returned column order `a.index` comes AFTER its parent
`a`, although both are present. -/
theorem index_column_after_parent :
    tidifyColumns [.obj [("a", .s (.i 1)), ("b", .s (.i 2))],
                   .obj [("a", .arr [.s (.i 1)])]] [] "." =
      ["row_index", "a", "b", "a.index"]
    ∧ ¬ (List.indexOf "a.index" ["row_index", "a", "b", "a.index"]
          < List.indexOf "a" ["row_index", "a", "b", "a.index"]) :=
  ⟨rfl, by decide⟩

/-!
## Claim theorems: the colliding `index` field (C9)
-/

/-- Fuel-generic evaluation of the engine on `[{a: [{"index": v}]}]`: the
element's field `"index"` is renamed to `a ++ sep ++ "index"`, which collides
with the positional index entry of the fixed context; the terminal merge lets
the remaining entry win, so the emitted record holds `v` there, not the
position `0`. -/
theorem tidyGo_index_field (fuel : Nat) (a sep : String) (v : SVal)
    (h : a ++ sep ++ "index" ≠ "row_index") :
    tidyGo (fuel + 3) (.arr [.obj [(a, .arr [.obj [("index", .s v)]])]]) [] [] sep =
      [[("row_index", .s (.i 0)), (a ++ sep ++ "index", .s v)]] := by
  have h' : ¬ ("row_index" = a ++ sep ++ "index") := fun hh => h hh.symm
  simp [tidyGo, pyEnum, pyEnumFrom, exclFilter, arraysOf, subobjectsOf,
    arrElemsAt, objFieldsAt, renameFields, stripKey, pyMerge, pyInsert, pyDict,
    nextRemaining, isArrB, isObjB, List.lookup, h, h']

/-- C9: if an array element that is a mapping contains a field literally named
`"index"`, the renamed entry `<arrayKey><sep>index` collides with the
positional index entry of the fixed context, and because remaining entries win
the merge, the emitted record's `<arrayKey><sep>index` column holds the
field's data value `v` rather than the element's position (`0`) in the array.
(The hypothesis keeps `<arrayKey><sep>index` distinct from the reserved
`row_index` key, as any actual path built with a separator is.) -/
theorem index_field_shadows_position (a sep : String) (v : SVal)
    (h : a ++ sep ++ "index" ≠ "row_index") :
    tidyRecords [.obj [(a, .arr [.obj [("index", .s v)]])]] [] sep =
      [[("row_index", .s (.i 0)), (a ++ sep ++ "index", .s v)]] := by
  have hsz : ∃ n, sizeJ (JVal.arr [.obj [(a, .arr [.obj [("index", .s v)]])]]) = n + 3 := by
    refine ⟨sizeJ (JVal.arr [.obj [(a, .arr [.obj [("index", .s v)]])]]) - 3, ?_⟩
    simp [sizeJ, sizeElems, sizeFields]
  obtain ⟨n, hn⟩ := hsz
  unfold tidyRecords convert_to_tidy
  rw [hn]
  exact tidyGo_index_field n a sep v h

/-- C9 witness: the theorem applied at `a = "b"`, `sep = "."`, `v = 99`;
on `[{"b": [{"index": 99}]}]` the emitted record's `b.index` column holds the
data value `99`, not the position `0`. -/
theorem index_field_shadows_position_witness :
    tidyRecords scenarioIndexField [] "." =
      [[("row_index", .s (.i 0)), ("b" ++ "." ++ "index", .s (.i 99))]] :=
  index_field_shadows_position "b" "." (.i 99) (by decide)

/-!
## Row-index-first lemmas (C6 amended)
-/

theorem headRow_pyInsert {d : Obj} (hd : HeadRow d) (k : String) (v : JVal) :
    HeadRow (pyInsert d k v) := by
  obtain ⟨w, t, rfl⟩ := hd
  unfold pyInsert
  split
  · rw [List.map_cons]
    by_cases hk : (("row_index", w) : String × JVal).1 = k
    · rw [if_pos hk]
      exact ⟨v, _, by rw [← hk]⟩
    · rw [if_neg hk]
      exact ⟨w, _, rfl⟩
  · exact ⟨w, t ++ [(k, v)], by rw [List.cons_append]⟩

theorem headRow_pyMerge : ∀ {b d : Obj}, HeadRow d → HeadRow (pyMerge d b)
  | [], _, hd => hd
  | p :: b, _, hd => headRow_pyMerge (b := b) (headRow_pyInsert hd p.1 p.2)

/-- Every record the engine emits starts with the `row_index` key, provided
the carried fixed context does (the top-level sequence branch installs such a
context for every element). -/
theorem tidyGo_headrow : ∀ (fuel : Nat) (r : JVal) (fixed : Obj)
    (ex : List String) (sep : String), HeadRow fixed →
    ∀ rec ∈ tidyGo fuel r fixed ex sep, HeadRow rec := by
  intro fuel
  induction fuel with
  | zero =>
    intro r fixed ex sep _ rec hrec
    simp [tidyGo] at hrec
  | succ n ih =>
    intro r fixed ex sep hfix rec hrec
    cases r with
    | s sv => simp [tidyGo] at hrec
    | arr rows =>
      rw [tidyGo] at hrec
      obtain ⟨p, _, hp2⟩ := List.mem_flatMap.mp hrec
      exact ih p.2 _ ex sep ⟨.s (.i p.1), [], rfl⟩ rec hp2
    | obj o =>
      rw [tidyGo] at hrec
      split at hrec
      · split at hrec
        · obtain ⟨q, _, hq2⟩ := List.mem_flatMap.mp hrec
          exact ih _ _ ex sep (headRow_pyInsert hfix _ _) rec hq2
        · split at hrec
          · exact ih _ _ ex sep hfix rec hrec
          · rw [List.mem_singleton.mp hrec]
            exact headRow_pyMerge hfix
      · exact absurd hrec (List.not_mem_nil rec)

/-- Every record produced by a full `tidify` run starts with `row_index`. -/
theorem tidyRecords_headrow (data : List JVal) (ex : List String) (sep : String) :
    ∀ rec ∈ tidyRecords data ex sep, HeadRow rec := by
  intro rec hrec
  unfold tidyRecords convert_to_tidy at hrec
  rw [show sizeJ (.arr data) = sizeElems data + 1 from by rw [sizeJ]; omega] at hrec
  rw [tidyGo_succ_arr] at hrec
  obtain ⟨p, _, hp2⟩ := List.mem_flatMap.mp hrec
  exact tidyGo_headrow _ _ _ ex sep ⟨.s (.i p.1), [], rfl⟩ rec hp2

theorem addCols_extends : ∀ (r : Obj) (acc : List String),
    ∃ ext, addCols acc r = acc ++ ext
  | [], acc => ⟨[], by simp [addCols]⟩
  | p :: r, acc => by
    have step : addCols acc (p :: r)
        = addCols (if acc.contains p.1 then acc else acc ++ [p.1]) r := rfl
    rw [step]
    split
    · exact addCols_extends r acc
    · obtain ⟨ext, hext⟩ := addCols_extends r (acc ++ [p.1])
      exact ⟨[p.1] ++ ext, by rw [hext, List.append_assoc]⟩

theorem foldl_addCols_extends : ∀ (recs : List Obj) (acc : List String),
    ∃ ext, recs.foldl addCols acc = acc ++ ext
  | [], acc => ⟨[], by simp⟩
  | r :: recs, acc => by
    rw [List.foldl_cons]
    obtain ⟨e1, he1⟩ := addCols_extends r acc
    obtain ⟨e2, he2⟩ := foldl_addCols_extends recs (addCols acc r)
    exact ⟨e1 ++ e2, by rw [he2, he1, List.append_assoc]⟩

/-- If every record starts with `row_index`, the first-appearance column
universe is empty or starts with `row_index`. -/
theorem colsOf_head {recs : List Obj} (h : ∀ rec ∈ recs, HeadRow rec) :
    colsOf recs = [] ∨ ∃ t, colsOf recs = "row_index" :: t := by
  cases recs with
  | nil => exact Or.inl rfl
  | cons r rs =>
    right
    obtain ⟨v, t, hr⟩ := h r (List.mem_cons_self _ _)
    have h1 : ∃ ext, addCols [] r = "row_index" :: ext := by
      rw [hr]
      have step : addCols [] (("row_index", v) :: t) = addCols ["row_index"] t := rfl
      rw [step]
      exact addCols_extends t ["row_index"]
    obtain ⟨e1, he1⟩ := h1
    have h2 : colsOf (r :: rs) = rs.foldl addCols (addCols [] r) := rfl
    obtain ⟨e2, he2⟩ := foldl_addCols_extends rs (addCols [] r)
    exact ⟨e1 ++ e2, by rw [h2, he2, he1, List.cons_append]⟩

theorem addCols_nodup : ∀ (r : Obj) (acc : List String),
    acc.Nodup → (addCols acc r).Nodup
  | [], _, ha => ha
  | p :: r, acc, ha => by
    have step : addCols acc (p :: r)
        = addCols (if acc.contains p.1 then acc else acc ++ [p.1]) r := rfl
    rw [step]
    split
    · exact addCols_nodup r acc ha
    · refine addCols_nodup r (acc ++ [p.1]) ?_
      rename_i hc
      exact List.Nodup.append ha (List.nodup_singleton _)
        (List.disjoint_singleton.mpr (by simpa using hc))

theorem foldl_addCols_nodup : ∀ (recs : List Obj) (acc : List String),
    acc.Nodup → (recs.foldl addCols acc).Nodup
  | [], _, ha => ha
  | r :: recs, acc, ha => by
    rw [List.foldl_cons]
    exact foldl_addCols_nodup recs (addCols acc r) (addCols_nodup r acc ha)

theorem colsOf_nodup (recs : List Obj) : (colsOf recs).Nodup :=
  foldl_addCols_nodup recs [] List.nodup_nil

theorem binSearchGo_ge (cmp : String → String → Int) (pivot : String)
    (a : List String) : ∀ (fuel l r : Nat), l ≤ binSearchGo cmp pivot a fuel l r
  | 0, l, r => Nat.le_refl l
  | fuel + 1, l, r => by
    rw [binSearchGo]
    split
    · split
      · exact binSearchGo_ge cmp pivot a fuel l _
      · refine Nat.le_trans ?_ (binSearchGo_ge cmp pivot a fuel _ r)
        omega
    · exact Nat.le_refl l

/-- If the probe at index 0 does not say "insert before", the binary search
never returns position 0 (with enough fuel for the whole range). -/
theorem binSearchGo_one_le (cmp : String → String → Int) (pivot : String)
    (a : List String) (hcmp : ¬ cmp pivot (a.getD 0 "") < 0) :
    ∀ (fuel l r : Nat), r - l ≤ fuel → 0 < r →
    1 ≤ binSearchGo cmp pivot a fuel l r
  | 0, l, r, hfl, hr => by
    rw [binSearchGo]
    omega
  | fuel + 1, l, r, hfl, hr => by
    rw [binSearchGo]
    by_cases hlr : l < r
    · rw [if_pos hlr]
      by_cases hc : cmp pivot (a.getD (l + (r - l) / 2) "") < 0
      · rw [if_pos hc]
        rcases Nat.eq_zero_or_pos l with hl0 | hlpos
        · subst hl0
          rcases Nat.eq_zero_or_pos (0 + (r - 0) / 2) with hm0 | hmpos
          · rw [hm0] at hc
            exact absurd hc hcmp
          · exact binSearchGo_one_le cmp pivot a hcmp fuel 0 _ (by omega) hmpos
        · exact Nat.le_trans hlpos (binSearchGo_ge cmp pivot a fuel l _)
      · rw [if_neg hc]
        refine Nat.le_trans ?_ (binSearchGo_ge cmp pivot a fuel _ r)
        omega
    · rw [if_neg hlr]
      omega

theorem insertAt_head {x h : String} {t : List String} {p : Nat} (hp : 1 ≤ p) :
    ∃ t2, insertAt p x (h :: t) = h :: t2 := by
  cases p with
  | zero => omega
  | succ p' => exact ⟨t.take p' ++ x :: t.drop p', rfl⟩

theorem binInsertAll_head (cmp : String → String → Int) :
    ∀ (rest : List String) (t : List String),
    (∀ x ∈ rest, ¬ cmp x "row_index" < 0) →
    ∃ t2, binInsertAll cmp ("row_index" :: t) rest = "row_index" :: t2
  | [], t, _ => ⟨t, rfl⟩
  | x :: rest, t, h => by
    have step : binInsertAll cmp ("row_index" :: t) (x :: rest)
        = binInsertAll cmp
            (insertAt (binInsertPos cmp x ("row_index" :: t) (t.length + 1)) x
              ("row_index" :: t)) rest := rfl
    have hpos : 1 ≤ binInsertPos cmp x ("row_index" :: t) (t.length + 1) := by
      unfold binInsertPos
      exact binSearchGo_one_le cmp x ("row_index" :: t)
        (h x (List.mem_cons_self _ _)) (t.length + 1) 0 (t.length + 1)
        (by omega) (by omega)
    obtain ⟨t3, ht3⟩ := insertAt_head hpos
    rw [step, ht3]
    exact binInsertAll_head cmp rest t3 (fun y hy => h y (List.mem_cons_of_mem _ hy))

theorem ascRun_rest_sub (cmp : String → String → Int) :
    ∀ (zs : List String) (prev x : String), x ∈ (ascRun cmp prev zs).2 → x ∈ zs
  | [], _, _, hx => absurd hx (List.not_mem_nil _)
  | z :: zs, prev, x, hx => by
    rw [ascRun] at hx
    split at hx
    · exact hx
    · exact List.mem_cons_of_mem _ (ascRun_rest_sub cmp zs z x hx)

/-- The modelled CPython sort keeps `row_index` first when every other element
compares as greater than it. -/
theorem pySort_head (cmp : String → String → Int) (t0 : List String)
    (hnr : ∀ x ∈ t0, ¬ cmp x "row_index" < 0) :
    ∃ t, pySort cmp ("row_index" :: t0) = "row_index" :: t := by
  cases t0 with
  | nil => exact ⟨[], rfl⟩
  | cons y rest =>
    have hy : ¬ cmp y "row_index" < 0 := hnr y (List.mem_cons_self _ _)
    rw [pySort, if_neg hy]
    exact binInsertAll_head cmp ((ascRun cmp y rest).2) (y :: (ascRun cmp y rest).1)
      (fun x hx => hnr x (List.mem_cons_of_mem _ (ascRun_rest_sub cmp rest y x hx)))

theorem col_comparator_row_index_right {y : String} (hy : y ≠ "row_index")
    (sep : String) : col_comparator y "row_index" sep = 1 := by
  unfold col_comparator
  rw [if_neg hy, if_pos rfl]

/-!
## Claim theorems: cartesian product (C2)
-/

/-- C2 counterexample: as literally stated the claim covers the empty object,
whose `n = 0` arrays give the empty product `1`, yet flattening it emits zero
records (`len(remaining_data) > 0` fails).  The product law needs the record
to be non-empty. -/
theorem cartesian_fails_empty_object :
    convert_to_tidy (.obj []) [("row_index", .s (.i 0))] [] "." = []
    ∧ rowProduct ([] : Obj) = 1 := ⟨rfl, rfl⟩

/-- C2 amended: for every NON-EMPTY record whose values are scalars plus
sibling arrays of scalars (distinct keys, and a fixed context with distinct
keys, as the engine always supplies), flattening with an empty exclusion set
emits exactly `l1 * l2 * ... * ln` records — the product of the array
lengths — and each record carries one `<arrayKey><sep>index` column per array
(its keys are pairwise distinct, so exactly one). -/
theorem cartesian_rows_flat_object (o fixed : Obj) (sep : String)
    (hne : o ≠ []) (hnd : (keysO o).Nodup) (hfnd : (keysO fixed).Nodup)
    (hflat : ∀ p ∈ o, flatValB p.2 = true) :
    (convert_to_tidy (.obj o) fixed [] sep).length = rowProduct o
    ∧ ∀ rec ∈ convert_to_tidy (.obj o) fixed [] sep,
        (keysO rec).Nodup
        ∧ ∀ p ∈ o, isArrB p.2 = true → (p.1 ++ sep ++ "index") ∈ keysO rec := by
  have hfl : (o.filter (fun p => isArrB p.2)).length < sizeJ (.obj o) := by
    have h1 := List.length_filter_le (fun p => isArrB p.2) o
    have h2 := length_lt_sizeJ_obj o
    omega
  have h := tidyGo_cartesian (sizeJ (.obj o)) o fixed sep hfl hne hnd hfnd hflat
  exact ⟨h.1, fun rec hrec => ⟨(h.2 rec hrec).1, (h.2 rec hrec).2.2⟩⟩

/-- C2 witness: Scenario C, the record `{"a": [1, 2], "b": [10, 20]}` under
the usual top-level fixed context, yields `2 * 2 = 4` records. -/
theorem cartesian_rows_flat_object_witness :
    (convert_to_tidy (.obj scenarioCrec) [("row_index", .s (.i 0))] [] ".").length = 4 := by
  have h := (cartesian_rows_flat_object scenarioCrec [("row_index", .s (.i 0))] "."
    (by simp [scenarioCrec]) (by decide) (by decide) (by decide)).1
  rw [h]
  rfl

/-!
## Claim theorems: column order (C6 amended)
-/

/-- C6 amended: in the ordered column list returned by the orchestrator,
`row_index` is the first column whenever it is present.  (The claim's second
part — `X<sep>index` always before `X` — is refuted by
`index_column_after_parent`: the comparator is intransitive and the sort can
leave an already-run-ascending column order untouched.)  Every emitted record
starts with `row_index`, so the first-appearance column universe starts with
it, and every other column compares greater, so both the run detection and the
binary insertions keep it first. -/
theorem row_index_column_first (data : List JVal) (exclude : List String)
    (sep : String) (hmem : "row_index" ∈ tidifyColumns data exclude sep) :
    (tidifyColumns data exclude sep).head? = some "row_index" := by
  rcases colsOf_head (tidyRecords_headrow data exclude sep) with hnil | ⟨t0, ht0⟩
  · unfold tidifyColumns at hmem
    rw [hnil] at hmem
    exact absurd hmem (List.not_mem_nil _)
  · have hndall := colsOf_nodup (tidyRecords data exclude sep)
    rw [ht0] at hndall
    have hcons := List.nodup_cons.mp hndall
    obtain ⟨t, ht⟩ := pySort_head (fun a b => col_comparator a b sep) t0
      (fun x hx => by
        have hxne : x ≠ "row_index" := fun he => hcons.1 (he ▸ hx)
        show ¬ col_comparator x "row_index" sep < 0
        rw [col_comparator_row_index_right hxne]
        omega)
    unfold tidifyColumns
    rw [ht0, ht]
    rfl

/-- C6 witness: on `[{"a": 1}]` the ordered columns are
`["row_index", "a"]`, and the theorem applies since `row_index` is present. -/
theorem row_index_column_first_witness :
    (tidifyColumns [JVal.obj [("a", .s (.i 1))]] [] ".").head? = some "row_index" :=
  row_index_column_first [JVal.obj [("a", .s (.i 1))]] [] "." (by decide)

/-!
## Claim theorems: emitted records (C7, C3 amended)
-/

/-- C7: for every input list (arbitrary trees), every flat record the engine
appends maps its keys only to scalar values: no emitted record contains an
object or an array value.  (The dispatch expands every array and flattens
every mapping before the terminal case can emit, and the fixed context only
ever receives integer indices.) -/
theorem emitted_values_scalar (data : List JVal) (exclude : List String)
    (sep : String) (rec : Obj) (hrec : rec ∈ tidyRecords data exclude sep)
    (q : String × JVal) (hq : q ∈ rec) : IsScalar q.2 :=
  tidyGo_vals (sizeJ (.arr data)) (.arr data) [] exclude sep
    (by intro q hq; exact absurd hq (List.not_mem_nil q)) rec hrec q hq

/-- C7 witness: on `[{"a": 1}]` the value of the emitted entry `("a", 1)` is a
scalar. -/
theorem emitted_values_scalar_witness :
    IsScalar (("a", JVal.s (.i 1)) : String × JVal).2 :=
  emitted_values_scalar [.obj [("a", .s (.i 1))]] [] "."
    [("row_index", .s (.i 0)), ("a", .s (.i 1))]
    (by
      rw [show tidyRecords [.obj [("a", .s (.i 1))]] [] "." =
        [[("row_index", JVal.s (.i 0)), ("a", .s (.i 1))]] from rfl]
      exact List.mem_singleton.mpr rfl)
    ("a", .s (.i 1))
    (List.mem_cons_of_mem _ (List.mem_cons_self _ _))

/-- C3 amended: for every path `p` in the exclusion set, no emitted record
contains a DATA key equal to `p` — every key of an emitted record is either
not in the exclusion set (data entries pass the exclusion filter at the level
that emits them) or a key contributed by the fixed context (`row_index` or an
`<arrayKey><sep>index` position column), which is never filtered.  The
original claim fails because such index keys can equal, or be nested under, an
excluded path (`exclusion_misses_index_key`). -/
theorem emitted_keys_excluded_or_index (data : List JVal) (exclude : List String)
    (sep : String) (rec : Obj) (hrec : rec ∈ tidyRecords data exclude sep)
    (k : String) (hk : k ∈ keysO rec) : k ∉ exclude ∨ IdxKey sep k :=
  tidyGo_keys (sizeJ (.arr data)) (.arr data) [] exclude sep
    (by intro k hk; exact absurd hk (List.not_mem_nil k)) rec hrec k hk

/-- C3 amended witness: on `[{"a": 1}]` with exclusion set `["b"]`, the
emitted key `"a"` is not excluded (or is an index key). -/
theorem emitted_keys_excluded_or_index_witness :
    "a" ∉ ["b"] ∨ IdxKey "." "a" :=
  emitted_keys_excluded_or_index [.obj [("a", .s (.i 1))]] ["b"] "."
    [("row_index", .s (.i 0)), ("a", .s (.i 1))]
    (by
      rw [show tidyRecords [.obj [("a", .s (.i 1))]] ["b"] "." =
        [[("row_index", JVal.s (.i 0)), ("a", .s (.i 1))]] from rfl]
      exact List.mem_singleton.mpr rfl)
    "a" (by decide)

end Tidify

